import Mathlib

/-!
Shallow embedding of the Condorcet election engine in `app/condorcet.py`
(class `CondorcetVotingSystem` and the module-level compatibility function
`condorcet_winner`).

Modelling conventions:
* Candidates are opaque Python ints, embedded as `Int`.
* The pairwise matrix is a Python dict `matrix[a][b]`; every read of it in
  the engine goes through `.get(_, 0)` at keys drawn from the candidate
  list over which the dict was built, so it is embedded as a total function
  `Int → Int → Int` that is `0` outside the ordered pairs of distinct
  declared candidates.
* The margin matrix is read in two ways: `resolve_ties_by_margin` only
  indexes it at ordered pairs of distinct candidates of the list it was
  built over (always present keys), so a total function suffices there;
  `_identify_ties` indexes the dict directly and can hit a missing key
  (a Python `KeyError`), so it receives the partial view `margin_lookup`
  returning `Option Int` (with `none` for a missing key).
* Python's `sorted(xs, key=k, reverse=True)` is a stable sort placing
  larger keys first.  Any stable sort with the same comparison produces
  the same list, so it is embedded as `List.insertionSort` with the
  relation `k b ≤ k a` (which is stable and puts larger keys first).
* Exceptions are embedded with `Except` / `Option`: `VoteValidationError`
  and the `ValueError` for an unknown tie-breaking method are the two
  exceptions the engine raises on purpose, `keyError` models the
  `KeyError` crash reachable in `_identify_ties`.
* The Python set returned by `compute_smith_set` is embedded as a
  `Finset Int` (Python materialises `list(current_set)` in an unspecified
  order, so only the set itself is meaningful).
-/

/-- Decidable equality for `Except`, used to evaluate the engine on concrete
inputs inside proofs. -/
instance {ε α : Type} [DecidableEq ε] [DecidableEq α] : DecidableEq (Except ε α) := fun x y =>
  match x, y with
  | .ok a, .ok b =>
    if h : a = b then .isTrue (by rw [h]) else .isFalse (fun hh => h (Except.ok.inj hh))
  | .error e, .error f =>
    if h : e = f then .isTrue (by rw [h]) else .isFalse (fun hh => h (Except.error.inj hh))
  | .ok _, .error _ => .isFalse (fun hh => Except.noConfusion hh)
  | .error _, .ok _ => .isFalse (fun hh => Except.noConfusion hh)

/-- Matrices of the engine: total-function view of the Python nested dicts. -/
abbrev Mat := Int → Int → Int

/-- Number of index pairs `i < j` with `ranking[i] = a` and `ranking[j] = b`;
this is how often one ballot counts as preferring `a` over `b` in
`compute_pairwise_matrix`. -/
def pair_pref_count (a b : Int) : List Int → Nat
  | [] => 0
  | x :: xs => (if x = a then xs.count b else 0) + pair_pref_count a b xs

/-- Embedding of `CondorcetVotingSystem.compute_pairwise_matrix`: the dict has
an entry for every ordered pair of distinct declared candidates, and each
ballot adds one for every in-ballot pair `(earlier, later)` both of which are
declared candidates. -/
def compute_pairwise_matrix (rankings : List (List Int)) (candidates : List Int) : Mat :=
  fun a b =>
    if a ∈ candidates ∧ b ∈ candidates ∧ a ≠ b then
      ((rankings.map (pair_pref_count a b)).sum : Nat)
    else 0

/-- Condition checked per candidate by `find_condorcet_winner`: every opponent
in the candidate list is either equal to the candidate (the `continue` branch)
or loses to it strictly (`votes_for > votes_against`). -/
def is_condorcet_winner (M : Mat) (candidates : List Int) (candidate : Int) : Bool :=
  candidates.all fun opponent =>
    decide (opponent = candidate) || decide (M opponent candidate < M candidate opponent)

/-- Embedding of `CondorcetVotingSystem.find_condorcet_winner`: first candidate
in list order that strictly beats every other declared candidate, `none`
when there is no such candidate. -/
def find_condorcet_winner (M : Mat) (candidates : List Int) : Option Int :=
  candidates.find? (is_condorcet_winner M candidates)

/-- Removal condition of one pass of `compute_smith_set`: the remaining set
`S \ {c}` is non-empty and each of its members strictly beats `c`
(`beats_all_outside(remaining, {candidate})` in the Python code). -/
def removable (M : Mat) (S : Finset Int) (c : Int) : Prop :=
  (S.erase c).Nonempty ∧ ∀ i ∈ S.erase c, M c i < M i c

instance (M : Mat) (S : Finset Int) : DecidablePred (removable M S) := fun c => by
  unfold removable; infer_instance

/-- Loop of `compute_smith_set`: repeatedly delete, in one batch, every
candidate all of whose fellow members beat it, until a pass removes nobody.
The Python `while True` loop needs at most one pass per candidate (each
continuing pass removes at least one element), so `candidates.length` passes
of fuel always reach the fixed point. -/
def smith_iter (M : Mat) : Nat → Finset Int → Finset Int
  | 0, S => S
  | n + 1, S =>
    let toRemove := S.filter (removable M S)
    if toRemove = ∅ then S else smith_iter M n (S \ toRemove)

/-- Embedding of `CondorcetVotingSystem.compute_smith_set` (its result set). -/
def compute_smith_set (M : Mat) (candidates : List Int) : Finset Int :=
  smith_iter M candidates.length candidates.toFinset

/-- Embedding of `CondorcetVotingSystem.compute_margin_matrix`, total-function
view: `margin[a][b] = matrix[a][b] - matrix[b][a]` (each side read with
`.get(_, 0)`). -/
def compute_margin_matrix (M : Mat) : Mat := fun a b => M a b - M b a

/-- Partial (dict-faithful) view of the margin matrix built over `candidates`:
the Python dict has a key `(a, b)` exactly for ordered pairs of distinct
members of `candidates`; any other direct index raises `KeyError`, modelled
by `none`. -/
def margin_lookup (M : Mat) (candidates : List Int) (a b : Int) : Option Int :=
  if a ∈ candidates ∧ b ∈ candidates ∧ a ≠ b then some (M a b - M b a) else none

/-- Inner loop of `resolve_ties_by_margin`: fold the candidate list keeping the
most negative margin seen so far, starting from `0` (so a candidate with no
losing margin keeps `0`). -/
def worst_margin (mm : Mat) (candidates : List Int) (candidate : Int) : Int :=
  candidates.foldl
    (fun worst opponent =>
      if candidate ≠ opponent ∧ mm candidate opponent < worst then mm candidate opponent
      else worst)
    0

/-- Score used by `resolve_ties_by_margin`: `scores[candidate] = -worst_margin`. -/
def margin_score (mm : Mat) (candidates : List Int) (c : Int) : Int :=
  -(worst_margin mm candidates c)

/-- Embedding of `CondorcetVotingSystem.resolve_ties_by_margin`: stable sort of
the candidates placing larger `margin_score` first (`sorted(..., reverse=True)`). -/
def resolve_ties_by_margin (candidates : List Int) (mm : Mat) : List Int :=
  List.insertionSort
    (fun a b => margin_score mm candidates b ≤ margin_score mm candidates a) candidates

/-- Score used by `resolve_ties_by_copeland`: strict pairwise wins minus strict
pairwise losses against the given candidate list (pairwise ties count as
neither). -/
def copeland_score (M : Mat) (candidates : List Int) (c : Int) : Int :=
  ((candidates.filter fun o => decide (o ≠ c) && decide (M o c < M c o)).length : Int)
    - ((candidates.filter fun o => decide (o ≠ c) && decide (M c o < M o c)).length : Int)

/-- Embedding of `CondorcetVotingSystem.resolve_ties_by_copeland`. -/
def resolve_ties_by_copeland (candidates : List Int) (M : Mat) : List Int :=
  List.insertionSort
    (fun a b => copeland_score M candidates b ≤ copeland_score M candidates a) candidates

/-- Borda points one ballot of length `n` gives to candidate `c`: the entry at
0-indexed position `i` earns `n - i - 1` points when it is `c` and `c` is in
the active candidate list. -/
def borda_points (candidates : List Int) (c : Int) (n : Nat) : List Int → Nat → Int
  | [], _ => 0
  | x :: xs, i =>
    (if x = c ∧ x ∈ candidates then (n : Int) - (i : Int) - 1 else 0)
      + borda_points candidates c n xs (i + 1)

/-- Score used by `resolve_ties_by_borda`, summed over all raw ballots. -/
def borda_score (rankings : List (List Int)) (candidates : List Int) (c : Int) : Int :=
  (rankings.map fun r => borda_points candidates c r.length r 0).sum

/-- Embedding of `CondorcetVotingSystem.resolve_ties_by_borda`. -/
def resolve_ties_by_borda (rankings : List (List Int)) (candidates : List Int) : List Int :=
  List.insertionSort
    (fun a b => borda_score rankings candidates b ≤ borda_score rankings candidates a) candidates

/-- Payload of the Python `VoteValidationError`: the offending ballot index and
either the first undeclared candidate in that ballot or the list of values
repeated inside it. -/
inductive VErr where
  | invalidCandidate (ballot : Nat) (candidate : Int)
  | duplicates (ballot : Nat) (dups : List Int)
deriving DecidableEq

/-- Exceptions observable from `conduct_election`: a validation failure, the
`ValueError` raised for an unknown tie-breaking method, or the `KeyError`
crash reachable in `_identify_ties`. -/
inductive ElectionError where
  | validation (e : VErr)
  | valueError (method : String)
  | keyError
deriving DecidableEq

/-- Validation of one ballot at index `i`, in source order: first scan for an
entry outside the declared candidate set, then compare the ballot length with
the size of its value set (`len(ranking) != len(set(ranking))`), reporting the
repeated values. -/
def validate_one (i : Nat) (ranking : List Int) (candidates : List Int) : Except VErr Bool :=
  match ranking.find? (fun c => decide (c ∉ candidates)) with
  | some c => .error (.invalidCandidate i c)
  | none =>
    if ranking.length ≠ ranking.dedup.length then
      .error (.duplicates i (ranking.filter fun x => decide (1 < ranking.count x)))
    else .ok true

/-- Loop of `validate_rankings` starting at ballot index `i`: the first failing
ballot aborts the whole validation. -/
def validate_rankings_from (candidates : List Int) : Nat → List (List Int) → Except VErr Bool
  | _, [] => .ok true
  | i, r :: rs =>
    match validate_one i r candidates with
    | .error e => .error e
    | .ok _ => validate_rankings_from candidates (i + 1) rs

/-- Embedding of `CondorcetVotingSystem.validate_rankings`: returns `True` when
every ballot only mentions declared candidates and has no internal repeat,
and raises `VoteValidationError` for the first violation otherwise. -/
def validate_rankings (rankings : List (List Int)) (candidates : List Int) : Except VErr Bool :=
  validate_rankings_from candidates 0 rankings

/-- Dispatch at the end of `compute_full_ranking`: the three recognised
tie-breaking method names, and `ValueError` for anything else. -/
def tie_break_ranking (method : String) (rankings : List (List Int)) (candidates : List Int)
    (M : Mat) (mm : Mat) : Except ElectionError (List Int) :=
  if method = "margin" then .ok (resolve_ties_by_margin candidates mm)
  else if method = "copeland" then .ok (resolve_ties_by_copeland candidates M)
  else if method = "borda" then .ok (resolve_ties_by_borda rankings candidates)
  else .error (.valueError method)

/-- Embedding of `CondorcetVotingSystem.compute_full_ranking`.  Each level
re-tabulates both matrices over the current candidate subset, looks for a
Condorcet winner, and either peels it off and recurses on the rest or hands
the whole remaining subset to the configured tie-break method.  The Python
guard is the truthiness test `if winner:`, so a found winner whose id is the
int `0` is treated like `None` and falls into the tie-break branch. -/
def compute_full_ranking (method : String) (rankings : List (List Int)) (candidates : List Int) :
    Except ElectionError (List Int) :=
  let M := compute_pairwise_matrix rankings candidates
  let mm := compute_margin_matrix M
  match h : find_condorcet_winner M candidates with
  | some winner =>
    if winner = 0 then
      tie_break_ranking method rankings candidates M mm
    else
      let remaining := candidates.filter fun c => decide (c ≠ winner)
      if remaining.isEmpty then .ok [winner]
      else
        match compute_full_ranking method rankings remaining with
        | .ok rest => .ok (winner :: rest)
        | .error e => .error e
  | none => tie_break_ranking method rankings candidates M mm
termination_by candidates.length
decreasing_by
  simp_wf
  have hw : winner ∈ candidates := List.mem_of_find?_eq_some h
  have key : ∀ l : List Int, winner ∈ l →
      (List.filter (fun c => !decide (c = winner)) l).length < l.length := by
    intro l hl
    induction l with
    | nil => cases hl
    | cons x xs ih =>
      by_cases hx : x = winner
      · subst hx
        simp only [List.filter_cons, decide_eq_true_eq]
        rw [if_neg (by simp)]
        simp only [List.length_cons]
        exact Nat.lt_succ_of_le (List.length_filter_le _ _)
      · have hl2 : winner ∈ xs := by
          rcases List.mem_cons.mp hl with hh | hh
          · exact absurd hh.symm hx
          · exact hh
        simp only [List.filter_cons, List.length_cons]
        have hb : (!decide (x = winner)) = true := by simp [hx]
        rw [hb]
        simpa using Nat.succ_lt_succ (ih hl2)
  exact key candidates hw

/-- Margin test of `_identify_ties` between the current group anchor `a` and a
later candidate `b`: both dict reads `margin_matrix[a][b]` and
`margin_matrix[b][a]` happen before the comparison, so a missing key is a
crash (`none`) even when the first margin already fails the threshold. -/
def tie_check (mm : Int → Int → Option Int) (a b : Int) : Option Bool :=
  match mm a b, mm b a with
  | some mab, some mba => some (decide (mab.natAbs ≤ 1) && decide (mba.natAbs ≤ 1))
  | _, _ => none

/-- Tie rule of `_identify_ties` as a function of a (total) margin matrix:
both margins between the two candidates have absolute value at most 1. -/
def tied_with (m : Mat) (a c : Int) : Bool :=
  decide ((m a c).natAbs ≤ 1) && decide ((m c a).natAbs ≤ 1)

/-- Scan of `_identify_ties` written as one left-to-right pass: `a` is the
first candidate of the current group (`ranking[i]` in the Python code, the
anchor every later candidate is compared with), `g` the reversed tail of the
current group.  On a failed check the failing candidate starts the next group,
exactly like the index jump `i = j if j > i + 1 else i + 1`. -/
def identify_ties_go (mm : Int → Int → Option Int) (a : Int) (g : List Int) :
    List Int → Option (List (List Int))
  | [] => some (if g.isEmpty then [] else [a :: g.reverse])
  | b :: rest =>
    match tie_check mm a b with
    | none => none
    | some t =>
      if t then identify_ties_go mm a (b :: g) rest
      else
        match identify_ties_go mm b [] rest with
        | none => none
        | some ts => some (if g.isEmpty then ts else (a :: g.reverse) :: ts)

/-- Embedding of `CondorcetVotingSystem._identify_ties`: groups of size at
least 2 of consecutive ranking entries each tied with the group's first
element; `none` models the `KeyError` crash on a missing margin key. -/
def identify_ties (mm : Int → Int → Option Int) : List Int → Option (List (List Int))
  | [] => some []
  | a :: rest => identify_ties_go mm a [] rest

/-- Result record of `conduct_election` (the Python dataclass `VoteResult`). -/
structure VoteResult where
  winner : Option Int
  pairwise_matrix : Mat
  vote_count : Nat
  candidates : List Int
  smith_set : Finset Int
  ranking : List Int
  ties : List (List Int)
  margin_matrix : Int → Int → Option Int

/-- Embedding of `CondorcetVotingSystem.conduct_election`: validate, tabulate,
detect the global winner, compute the Smith set, compose the full ranking,
identify ties over it, and assemble the result. -/
def conduct_election (method : String) (rankings : List (List Int)) (candidates : List Int) :
    Except ElectionError VoteResult :=
  match validate_rankings rankings candidates with
  | .error e => .error (.validation e)
  | .ok _ =>
    let M := compute_pairwise_matrix rankings candidates
    let mm := margin_lookup M candidates
    match compute_full_ranking method rankings candidates with
    | .error e => .error e
    | .ok ranking =>
      match identify_ties mm ranking with
      | none => .error .keyError
      | some ties =>
        .ok { winner := find_condorcet_winner M candidates
              pairwise_matrix := M
              vote_count := rankings.length
              candidates := candidates
              smith_set := compute_smith_set M candidates
              ranking := ranking
              ties := ties
              margin_matrix := mm }

/-- The empty dict `{}` returned by the legacy wrapper on validation failure:
read through `.get(_, 0)` it is the all-zero matrix. -/
def empty_matrix : Mat := fun _ _ => 0

/-- Embedding of the module-level compatibility function `condorcet_winner`:
run a full election with the default `"margin"` method, give back winner and
pairwise matrix, and swallow exactly the `VoteValidationError`s, turning them
into `(None, {})`.  Any other exception propagates. -/
def condorcet_winner (rankings : List (List Int)) (candidates : List Int) :
    Except ElectionError (Option Int × Mat) :=
  match conduct_election "margin" rankings candidates with
  | .ok result => .ok (result.winner, result.pairwise_matrix)
  | .error (.validation _) => .ok (none, empty_matrix)
  | .error e => .error e


/-!
Helper lemmas about validation.
-/

/-- Characterisation of a single-ballot validation success: every entry is a
declared candidate and the ballot has no internal repeat. -/
theorem validate_one_ok_iff (i : Nat) (r candidates : List Int) :
    validate_one i r candidates = .ok true ↔ (∀ c ∈ r, c ∈ candidates) ∧ r.Nodup := by
  unfold validate_one
  cases hf : r.find? (fun c => decide (c ∉ candidates)) with
  | some c =>
    have hc : c ∉ candidates := by simpa using List.find?_some hf
    have hm : c ∈ r := List.mem_of_find?_eq_some hf
    simp only [reduceCtorEq, false_iff, not_and]
    intro hall
    exact absurd (hall c hm) hc
  | none =>
    have hall : ∀ c ∈ r, c ∈ candidates := by
      intro c hc
      have := List.find?_eq_none.mp hf c hc
      simpa using this
    by_cases hd : r.length = r.dedup.length
    · have hnd : r.Nodup := by
        have hsub := List.dedup_sublist r
        have : r.dedup = r := hsub.eq_of_length hd.symm
        rw [← this]
        exact List.nodup_dedup r
      simp only [hd, ne_eq, not_true_eq_false, if_false]
      simp [hnd]
      exact hall
    · have hnd : ¬ r.Nodup := by
        intro hnd
        exact hd (by rw [List.dedup_eq_self.mpr hnd])
      simp [hd, hnd]

/-- The single-ballot validator never produces `ok false`. -/
theorem validate_one_ne_ok_false (i : Nat) (r candidates : List Int) :
    validate_one i r candidates ≠ .ok false := by
  unfold validate_one
  cases hf : r.find? (fun c => decide (c ∉ candidates)) with
  | some c => simp
  | none =>
    by_cases hd : r.length = r.dedup.length <;> simp [hd]

/-- Error payload of the single-ballot validator: the reported index is the
ballot's own, an invalid-candidate report names an entry of the ballot that is
not declared, and a duplicate report lists exactly the repeated values. -/
theorem validate_one_error (i : Nat) (r candidates : List Int) (e : VErr)
    (h : validate_one i r candidates = .error e) :
    (∃ c, e = .invalidCandidate i c ∧ c ∈ r ∧ c ∉ candidates) ∨
      (e = .duplicates i (r.filter fun x => decide (1 < r.count x)) ∧ ¬ r.Nodup) := by
  unfold validate_one at h
  cases hf : r.find? (fun c => decide (c ∉ candidates)) with
  | some c =>
    rw [hf] at h
    left
    refine ⟨c, ?_, List.mem_of_find?_eq_some hf, by simpa using List.find?_some hf⟩
    cases h
    rfl
  | none =>
    rw [hf] at h
    by_cases hd : r.length = r.dedup.length
    · simp [hd] at h
    · right
      simp only [if_pos hd] at h
      cases h
      refine ⟨rfl, fun hnd => hd ?_⟩
      rw [List.dedup_eq_self.mpr hnd]

/-- Validation of a ballot list succeeds exactly when every ballot passes the
single-ballot check. -/
theorem validate_from_ok_iff (candidates : List Int) (k : Nat) (rankings : List (List Int)) :
    validate_rankings_from candidates k rankings = .ok true ↔
      ∀ r ∈ rankings, (∀ c ∈ r, c ∈ candidates) ∧ r.Nodup := by
  induction rankings generalizing k with
  | nil => simp [validate_rankings_from]
  | cons r rs ih =>
    unfold validate_rankings_from
    cases hv : validate_one k r candidates with
    | error e =>
      have hbad : ¬ ((∀ c ∈ r, c ∈ candidates) ∧ r.Nodup) := by
        intro hok
        have h2 := (validate_one_ok_iff k r candidates).mpr hok
        rw [hv] at h2
        cases h2
      simp only [reduceCtorEq, false_iff, not_forall]
      exact ⟨r, by simp [hbad]⟩
    | ok b =>
      cases b with
      | false => exact absurd hv (validate_one_ne_ok_false k r candidates)
      | true =>
        have hr := (validate_one_ok_iff k r candidates).mp hv
        rw [ih (k + 1)]
        constructor
        · intro hall c hc
          rcases List.mem_cons.mp hc with hh | hh
          · rw [hh]; exact hr
          · exact hall c hh
        · intro hall c hc
          exact hall c (List.mem_cons_of_mem _ hc)

/-- Validation never returns `ok False`. -/
theorem validate_from_ne_ok_false (candidates : List Int) (k : Nat)
    (rankings : List (List Int)) :
    validate_rankings_from candidates k rankings ≠ .ok false := by
  induction rankings generalizing k with
  | nil => simp [validate_rankings_from]
  | cons r rs ih =>
    unfold validate_rankings_from
    cases hv : validate_one k r candidates with
    | error e => simp
    | ok b =>
      cases b with
      | false => exact absurd hv (validate_one_ne_ok_false k r candidates)
      | true => exact ih (k + 1)

/-- A validation error always comes from one ballot of the list: the ballot at
offset `j`, reported with the absolute index `k + j`. -/
theorem validate_from_error (candidates : List Int) (k : Nat) (rankings : List (List Int))
    (e : VErr) (h : validate_rankings_from candidates k rankings = .error e) :
    ∃ j r, rankings.get? j = some r ∧ validate_one (k + j) r candidates = .error e := by
  induction rankings generalizing k with
  | nil => simp [validate_rankings_from] at h
  | cons r rs ih =>
    unfold validate_rankings_from at h
    cases hv : validate_one k r candidates with
    | error f =>
      rw [hv] at h
      cases h
      exact ⟨0, r, rfl, hv⟩
    | ok b =>
      rw [hv] at h
      obtain ⟨j, rr, hget, hone⟩ := ih (k + 1) h
      refine ⟨j + 1, rr, by simpa using hget, ?_⟩
      have harith : k + 1 + j = k + (j + 1) := by omega
      rw [← harith]
      exact hone

/-!
Helper lemmas about the Smith-set loop and winner detection.
-/

/-- The Smith loop only ever removes candidates. -/
theorem smith_iter_subset (M : Mat) :
    ∀ (n : Nat) (S : Finset Int), smith_iter M n S ⊆ S := by
  intro n
  induction n with
  | zero => intro S; simp [smith_iter]
  | succ n ih =>
    intro S
    simp only [smith_iter]
    by_cases hemp : S.filter (removable M S) = ∅
    · simp [hemp]
    · simp only [hemp, if_false]
      exact (ih _).trans Finset.sdiff_subset

/-- One pass of the Smith loop cannot remove every member: two distinct
removable candidates would each have to strictly beat the other. -/
theorem smith_pass_nonempty (M : Mat) (S : Finset Int) (hS : S.Nonempty) :
    (S \ S.filter (removable M S)).Nonempty := by
  by_contra hem
  rw [Finset.not_nonempty_iff_eq_empty, Finset.sdiff_eq_empty_iff_subset] at hem
  obtain ⟨c, hc⟩ := hS
  have hrc : removable M S c := (Finset.mem_filter.mp (hem hc)).2
  obtain ⟨⟨d, hd⟩, hallc⟩ := hrc
  have hdS : d ∈ S := (Finset.mem_erase.mp hd).2
  have hdc : d ≠ c := (Finset.mem_erase.mp hd).1
  have hrd : removable M S d := (Finset.mem_filter.mp (hem hdS)).2
  have h1 : M c d < M d c := hallc d hd
  have h2 : M d c < M c d := hrd.2 c (Finset.mem_erase.mpr ⟨hdc.symm, hc⟩)
  omega

/-- The Smith loop keeps a non-empty set non-empty. -/
theorem smith_iter_nonempty (M : Mat) :
    ∀ (n : Nat) (S : Finset Int), S.Nonempty → (smith_iter M n S).Nonempty := by
  intro n
  induction n with
  | zero => intro S hS; simpa [smith_iter] using hS
  | succ n ih =>
    intro S hS
    simp only [smith_iter]
    by_cases hemp : S.filter (removable M S) = ∅
    · simpa [hemp] using hS
    · simp only [hemp, if_false]
      exact ih _ (smith_pass_nonempty M S hS)

/-- Invariant of the Smith loop relative to an ambient set `T`: every kept
candidate strictly beats every candidate of `T` that has been dropped. -/
theorem smith_iter_beats (M : Mat) (T : Finset Int) :
    ∀ (n : Nat) (S : Finset Int), S ⊆ T →
      (∀ a ∈ S, ∀ b ∈ T, b ∉ S → M b a < M a b) →
      ∀ a ∈ smith_iter M n S, ∀ b ∈ T, b ∉ smith_iter M n S → M b a < M a b := by
  intro n
  induction n with
  | zero =>
    intro S _ hinv a ha b hbT hb
    simp only [smith_iter] at ha hb
    exact hinv a ha b hbT hb
  | succ n ih =>
    intro S hsub hinv a ha b hbT hb
    simp only [smith_iter] at ha hb
    by_cases hemp : S.filter (removable M S) = ∅
    · rw [if_pos hemp] at ha hb
      exact hinv a ha b hbT hb
    · rw [if_neg hemp] at ha hb
      refine ih (S \ S.filter (removable M S)) (Finset.sdiff_subset.trans hsub) ?_ a ha b hbT hb
      intro x hx y hyT hy
      by_cases hyS : y ∈ S
      · have hytr : y ∈ S.filter (removable M S) := by
          by_contra hyf
          exact hy (Finset.mem_sdiff.mpr ⟨hyS, hyf⟩)
        have hrem : removable M S y := (Finset.mem_filter.mp hytr).2
        have hxS : x ∈ S := (Finset.mem_sdiff.mp hx).1
        have hxy : x ≠ y := by
          intro hxy
          rw [hxy] at hx
          exact (Finset.mem_sdiff.mp hx).2 hytr
        exact hrem.2 x (Finset.mem_erase.mpr ⟨hxy, hxS⟩)
      · exact hinv x (Finset.mem_sdiff.mp hx).1 y hyT hyS

/-- Unfolding of the per-candidate check of `find_condorcet_winner`. -/
theorem is_condorcet_winner_iff (M : Mat) (candidates : List Int) (c : Int) :
    is_condorcet_winner M candidates c = true ↔
      ∀ o ∈ candidates, o = c ∨ M o c < M c o := by
  simp [is_condorcet_winner, List.all_eq_true]

/-- When some member of the list passes the winner check and every passing
member is `w`, the scan returns exactly `w`. -/
theorem find_condorcet_winner_eq_some (M : Mat) (candidates : List Int) (w : Int)
    (hw : w ∈ candidates) (hpred : is_condorcet_winner M candidates w = true)
    (huniq : ∀ c ∈ candidates, is_condorcet_winner M candidates c = true → c = w) :
    find_condorcet_winner M candidates = some w := by
  unfold find_condorcet_winner
  cases hf : candidates.find? (is_condorcet_winner M candidates) with
  | none => exact absurd hpred (by simpa using List.find?_eq_none.mp hf w hw)
  | some c => rw [huniq c (List.mem_of_find?_eq_some hf) (List.find?_some hf)]

/-!
Helper lemmas about tie-breaking and the recursive ranking composer.
-/

/-- Each recognised tie-break method returns a permutation of the candidate
subset it is given (all three are sorts of that subset). -/
theorem tie_break_ranking_perm (method : String) (rankings : List (List Int))
    (candidates : List Int) (M mm : Mat)
    (h : method = "margin" ∨ method = "copeland" ∨ method = "borda") :
    ∃ l, tie_break_ranking method rankings candidates M mm = .ok l ∧ l.Perm candidates := by
  rcases h with h | h | h <;> subst h
  · exact ⟨_, rfl, List.perm_insertionSort _ _⟩
  · refine ⟨resolve_ties_by_copeland candidates M, ?_, List.perm_insertionSort _ _⟩
    rfl
  · refine ⟨resolve_ties_by_borda rankings candidates, ?_, List.perm_insertionSort _ _⟩
    rfl

/-- Bounded-length version of the ranking-completeness property: for a
duplicate-free candidate list and a recognised method the composer succeeds
and returns a permutation of the candidates. -/
theorem compute_full_ranking_perm_aux (method : String) (rankings : List (List Int))
    (hm : method = "margin" ∨ method = "copeland" ∨ method = "borda") :
    ∀ (n : Nat) (candidates : List Int), candidates.length ≤ n → candidates.Nodup →
      ∃ l, compute_full_ranking method rankings candidates = .ok l ∧ l.Perm candidates := by
  intro n
  induction n with
  | zero =>
    intro candidates hlen hnd
    have hnil : candidates = [] := List.eq_nil_of_length_eq_zero (Nat.le_zero.mp hlen)
    subst hnil
    obtain ⟨l, hl, hp⟩ := tie_break_ranking_perm method rankings []
      (compute_pairwise_matrix rankings [])
      (compute_margin_matrix (compute_pairwise_matrix rankings [])) hm
    refine ⟨l, ?_, hp⟩
    rw [compute_full_ranking]
    simpa [find_condorcet_winner] using hl
  | succ n ih =>
    intro candidates hlen hnd
    rw [compute_full_ranking]
    split
    next winner hfw =>
      by_cases hw0 : winner = 0
      · rw [if_pos hw0]
        exact tie_break_ranking_perm method rankings candidates _ _ hm
      · rw [if_neg hw0]
        have hmem : winner ∈ candidates := List.mem_of_find?_eq_some hfw
        by_cases hre : (candidates.filter fun c => decide (c ≠ winner)).isEmpty
        · rw [if_pos hre]
          have hall : ∀ c ∈ candidates, c = winner := by
            intro c hc
            by_contra hcw
            have := List.filter_eq_nil_iff.mp (List.isEmpty_iff.mp hre) c hc
            simp [hcw] at this
          have hcands : candidates = [winner] := by
            cases candidates with
            | nil => cases hmem
            | cons x xs =>
              have hx : x = winner := hall x (List.mem_cons_self x xs)
              cases xs with
              | nil => rw [hx]
              | cons y ys =>
                have hy : y = winner := hall y (by simp)
                exfalso
                have hxy : x ≠ y := by
                  have := List.nodup_cons.mp hnd
                  intro hxyeq
                  exact this.1 (by rw [hxyeq]; simp)
                exact hxy (by rw [hx, hy])
          exact ⟨[winner], rfl, by rw [hcands]⟩
        · rw [if_neg hre]
          have hlt : (candidates.filter fun c => decide (c ≠ winner)).length < candidates.length := by
            have key : ∀ l : List Int, winner ∈ l →
                (List.filter (fun c => decide (c ≠ winner)) l).length < l.length := by
              intro l hl
              induction l with
              | nil => cases hl
              | cons x xs ihl =>
                by_cases hx : x = winner
                · subst hx
                  simp only [List.filter_cons]
                  rw [if_neg (by simp)]
                  simp only [List.length_cons]
                  exact Nat.lt_succ_of_le (List.length_filter_le _ _)
                · have hl2 : winner ∈ xs := by
                    rcases List.mem_cons.mp hl with hh | hh
                    · exact absurd hh.symm hx
                    · exact hh
                  simp only [List.filter_cons, List.length_cons]
                  have hb : (decide (x ≠ winner)) = true := by simp [hx]
                  rw [hb]
                  simpa using Nat.succ_lt_succ (ihl hl2)
            exact key candidates hmem
          obtain ⟨rest, hrest, hrp⟩ := ih (candidates.filter fun c => decide (c ≠ winner))
            (by omega) (hnd.filter _)
          refine ⟨winner :: rest, by rw [hrest], ?_⟩
          have herase : candidates.filter (fun c => decide (c ≠ winner)) = candidates.erase winner := by
            rw [List.Nodup.erase_eq_filter hnd]
            apply List.filter_congr
            intro x _
            rw [Bool.eq_iff_iff]
            simp
          have hp1 : (winner :: rest).Perm (winner :: candidates.erase winner) :=
            List.Perm.cons winner (herase ▸ hrp)
          exact hp1.trans (List.perm_cons_erase hmem).symm
    next hfw =>
      exact tie_break_ranking_perm method rankings candidates _ _ hm

/-!
Helper lemma about the tie-identification scan.
-/

/-- Closed form of the tie scan under a total margin matrix: the pending group
anchored at `a` (with already-collected tail `g`) absorbs exactly the longest
prefix of the remaining ranking whose members are each tied with the anchor
`a`, and the scan restarts on the rest. -/
theorem identify_ties_go_total (m : Mat) (rest : List Int) :
    ∀ (a : Int) (g : List Int),
      identify_ties_go (fun x y => some (m x y)) a g rest =
        (identify_ties (fun x y => some (m x y)) (rest.dropWhile (tied_with m a))).map
          (fun ts =>
            if g.isEmpty ∧ (rest.takeWhile (tied_with m a)).isEmpty then ts
            else (a :: (g.reverse ++ rest.takeWhile (tied_with m a))) :: ts) := by
  induction rest with
  | nil =>
    intro a g
    by_cases hg : g.isEmpty
    · simp [identify_ties_go, identify_ties, hg]
    · simp [identify_ties_go, identify_ties, hg]
  | cons b rest2 ih =>
    intro a g
    have hcheck : tie_check (fun x y => some (m x y)) a b = some (tied_with m a b) := rfl
    by_cases htie : tied_with m a b = true
    · have hlhs : identify_ties_go (fun x y => some (m x y)) a g (b :: rest2) =
          identify_ties_go (fun x y => some (m x y)) a (b :: g) rest2 := by
        simp [identify_ties_go, hcheck, htie]
      rw [hlhs, ih a (b :: g)]
      rw [List.takeWhile_cons, List.dropWhile_cons]
      simp only [htie, if_true]
      congr 1
      funext ts
      simp
    · have hfalse : tied_with m a b = false := by
        cases hb : tied_with m a b
        · rfl
        · exact absurd hb htie
      have hlhs : identify_ties_go (fun x y => some (m x y)) a g (b :: rest2) =
          match identify_ties_go (fun x y => some (m x y)) b [] rest2 with
          | none => none
          | some ts => some (if g.isEmpty then ts else (a :: g.reverse) :: ts) := by
        simp [identify_ties_go, hcheck, hfalse]
      rw [hlhs]
      rw [List.takeWhile_cons, List.dropWhile_cons]
      simp only [hfalse, Bool.false_eq_true, if_false]
      have hid : identify_ties (fun x y => some (m x y)) (b :: rest2) =
          identify_ties_go (fun x y => some (m x y)) b [] rest2 := rfl
      rw [hid]
      cases identify_ties_go (fun x y => some (m x y)) b [] rest2 with
      | none => rfl
      | some ts => simp

/-!
Claim theorems.
-/

/-- C1.  The claim says a non-`None` `winner` field of `conduct_election`
always equals the head of the `ranking` field.  The code refutes it: with
candidates `[0, 1]` and the single ballot `[0, 1]`, candidate `0` is the
Condorcet winner, so the result's `winner` field is `0` (not `None`), but the
composer's guard `if winner:` treats the int `0` as falsy, drops into the
margin tie-break (which ranks the loser first) and returns the ranking
`[1, 0]`, whose head is `1 ≠ 0`. -/
theorem conduct_election_winner_zero_bug :
    (conduct_election "margin" [[0, 1]] [0, 1]).map (fun r => (r.winner, r.ranking)) =
      .ok (some 0, [1, 0]) := by
  unfold conduct_election
  rw [compute_full_ranking]
  decide

/-- C2, counterexample.  With the ballots `[[1,2],[1,3]]` candidate `1` is the
Condorcet winner, yet `compute_smith_set` returns the full set `{1, 2, 3}`:
its removal rule only deletes a candidate beaten by every other remaining
candidate, and neither `2` nor `3` is (they tie with each other), so the
claimed equivalence "singleton exactly when a Condorcet winner exists"
fails in the winner-to-singleton direction. -/
theorem smith_singleton_iff_refuted :
    find_condorcet_winner (compute_pairwise_matrix [[1, 2], [1, 3]] [1, 2, 3]) [1, 2, 3]
        = some 1 ∧
      compute_smith_set (compute_pairwise_matrix [[1, 2], [1, 3]] [1, 2, 3]) [1, 2, 3]
        = {1, 2, 3} ∧
      compute_smith_set (compute_pairwise_matrix [[1, 2], [1, 3]] [1, 2, 3]) [1, 2, 3]
        ≠ {1} := by
  refine ⟨by decide, by decide, by decide⟩

/-- C2, amended.  Only one direction of the claimed equivalence holds: if
`compute_smith_set` returns a singleton `{w}`, then `find_condorcet_winner`
returns `w` on the same matrix and candidate list.  (The converse fails, see
the counterexample.) -/
theorem smith_singleton_winner (M : Mat) (candidates : List Int) (w : Int)
    (h : compute_smith_set M candidates = {w}) :
    find_condorcet_winner M candidates = some w := by
  have hsub : compute_smith_set M candidates ⊆ candidates.toFinset :=
    smith_iter_subset M candidates.length candidates.toFinset
  have hbeats : ∀ a ∈ compute_smith_set M candidates, ∀ b ∈ candidates.toFinset,
      b ∉ compute_smith_set M candidates → M b a < M a b :=
    smith_iter_beats M candidates.toFinset candidates.length candidates.toFinset
      (Finset.Subset.refl _) (fun a _ b hbT hb => absurd hbT hb)
  have hwS : w ∈ compute_smith_set M candidates := by
    rw [h]
    exact Finset.mem_singleton_self w
  have hwc : w ∈ candidates := List.mem_toFinset.mp (hsub hwS)
  have hwbeats : ∀ o ∈ candidates, o = w ∨ M o w < M w o := by
    intro o ho
    by_cases how : o = w
    · exact Or.inl how
    · refine Or.inr (hbeats w hwS o (List.mem_toFinset.mpr ho) ?_)
      rw [h]
      simpa using how
  refine find_condorcet_winner_eq_some M candidates w hwc
    ((is_condorcet_winner_iff M candidates w).mpr hwbeats) ?_
  intro c hc hcw
  by_contra hcne
  have h1 : M w c < M c w := by
    rcases (is_condorcet_winner_iff M candidates c).mp hcw w hwc with hh | hh
    · exact absurd hh.symm hcne
    · exact hh
  have h2 : M c w < M w c := by
    rcases hwbeats c hc with hh | hh
    · exact absurd hh hcne
    · exact hh
  omega

/-- C2, witness for the amended direction: on the single ballot `[1, 2]` the
Smith set is `{1}` and winner detection indeed returns `1`. -/
theorem smith_singleton_winner_witness :
    find_condorcet_winner (compute_pairwise_matrix [[1, 2]] [1, 2]) [1, 2] = some 1 :=
  smith_singleton_winner (compute_pairwise_matrix [[1, 2]] [1, 2]) [1, 2] 1 (by decide)

/-- C3, counterexample.  On the ballots of the clear-winner scenario the
composed ranking is `[1, 2, 3]` and the margins are `margin[1][2] = 1`,
`margin[2][3] = 1`, `margin[1][3] = 3`.  The tie rule holds between the
adjacent candidates `2` and `3`, so under the claimed adjacent-chaining rule
`3` would join the group `[1, 2]`; the code instead tests `3` against the
group's first element `1`, fails, and reports the group `[1, 2]` only. -/
theorem identify_ties_adjacent_refuted :
    identify_ties
        (margin_lookup (compute_pairwise_matrix [[1, 2, 3], [1, 3, 2], [2, 1, 3]] [1, 2, 3])
          [1, 2, 3])
        [1, 2, 3] = some [[1, 2]] ∧
      (compute_margin_matrix (compute_pairwise_matrix [[1, 2, 3], [1, 3, 2], [2, 1, 3]] [1, 2, 3])
          2 3).natAbs ≤ 1 ∧
      (compute_margin_matrix (compute_pairwise_matrix [[1, 2, 3], [1, 3, 2], [2, 1, 3]] [1, 2, 3])
          3 2).natAbs ≤ 1 := by
  refine ⟨by decide, by decide, by decide⟩

/-- C3, amended.  A tie group extends by testing each subsequent candidate
against the group's FIRST element (the anchor), not against its immediate
predecessor: the group opened at `a` absorbs exactly the longest prefix of
the following ranking whose members each satisfy the threshold rule against
`a`, and the scan resumes at the first candidate failing it. -/
theorem identify_ties_anchor_rule (m : Mat) (a : Int) (rest : List Int) :
    identify_ties (fun x y => some (m x y)) (a :: rest) =
      (identify_ties (fun x y => some (m x y)) (rest.dropWhile (tied_with m a))).map
        (fun ts =>
          if (rest.takeWhile (tied_with m a)).isEmpty then ts
          else (a :: rest.takeWhile (tied_with m a)) :: ts) := by
  have h := identify_ties_go_total m rest a []
  have hstart : identify_ties (fun x y => some (m x y)) (a :: rest) =
      identify_ties_go (fun x y => some (m x y)) a [] rest := rfl
  rw [hstart, h]
  congr 1
  funext ts
  simp

/-- C4.  The claim states the minimax semantics: a candidate whose worst-case
losing margin is smaller in magnitude is never ranked below one whose is
larger.  The code refutes it: with margins built from the single ballot
`[2, 1]` over candidates `[1, 2]`, candidate `2` has no losses (score `0`)
and candidate `1` has worst margin `-1` (score `1`); the sort is descending
on these scores, so the output is `[1, 2]`, ranking the undefeated candidate
`2` below candidate `1`. -/
theorem resolve_ties_by_margin_inverted :
    margin_score (compute_margin_matrix (compute_pairwise_matrix [[2, 1]] [1, 2])) [1, 2] 1 = 1 ∧
      margin_score (compute_margin_matrix (compute_pairwise_matrix [[2, 1]] [1, 2])) [1, 2] 2 = 0 ∧
      resolve_ties_by_margin [1, 2]
        (compute_margin_matrix (compute_pairwise_matrix [[2, 1]] [1, 2])) = [1, 2] := by
  refine ⟨by decide, by decide, by decide⟩

/-- C5.  The claim says the unrecognised-strategy error is never raised when a
clean Condorcet winner exists at every recursion level.  The code refutes it:
with the single candidate `0` (and no ballots) candidate `0` is a clean
Condorcet winner of the only recursion level, yet `compute_full_ranking` with
the unknown method name `"bogus"` raises the `ValueError`, because the guard
`if winner:` treats the winning id `0` as falsy and falls into the tie-break
dispatch. -/
theorem unknown_method_clean_winner_bug :
    find_condorcet_winner (compute_pairwise_matrix [] [0]) [0] = some 0 ∧
      compute_full_ranking "bogus" [] [0] = .error (.valueError "bogus") := by
  constructor
  · decide
  · rw [compute_full_ranking]
    decide

/-- C6.  Soundness of the returned Smith set: for a non-empty candidate list
it is a non-empty subset of the candidates, and every member strictly
pairwise-beats every declared candidate outside of it. -/
theorem compute_smith_set_sound (M : Mat) (candidates : List Int) (h : candidates ≠ []) :
    (compute_smith_set M candidates).Nonempty ∧
      compute_smith_set M candidates ⊆ candidates.toFinset ∧
      ∀ a ∈ compute_smith_set M candidates, ∀ b ∈ candidates.toFinset,
        b ∉ compute_smith_set M candidates → M b a < M a b := by
  refine ⟨?_, smith_iter_subset M candidates.length candidates.toFinset, ?_⟩
  · exact smith_iter_nonempty M candidates.length candidates.toFinset
      ((List.toFinset_nonempty_iff candidates).mpr h)
  · exact smith_iter_beats M candidates.toFinset candidates.length candidates.toFinset
      (Finset.Subset.refl _) (fun a _ b hbT hb => absurd hbT hb)

/-- C6, witness at the two-candidate election with the single ballot `[1, 2]`. -/
theorem compute_smith_set_sound_witness :
    (compute_smith_set (compute_pairwise_matrix [[1, 2]] [1, 2]) [1, 2]).Nonempty ∧
      compute_smith_set (compute_pairwise_matrix [[1, 2]] [1, 2]) [1, 2] ⊆
        ([1, 2] : List Int).toFinset ∧
      ∀ a ∈ compute_smith_set (compute_pairwise_matrix [[1, 2]] [1, 2]) [1, 2],
        ∀ b ∈ ([1, 2] : List Int).toFinset,
          b ∉ compute_smith_set (compute_pairwise_matrix [[1, 2]] [1, 2]) [1, 2] →
            compute_pairwise_matrix [[1, 2]] [1, 2] b a <
              compute_pairwise_matrix [[1, 2]] [1, 2] a b :=
  compute_smith_set_sound (compute_pairwise_matrix [[1, 2]] [1, 2]) [1, 2] (by decide)

/-- C7.  Ranking completeness: for a duplicate-free candidate list and a
recognised tie-break method, the composer succeeds and returns a permutation
of the declared candidates (in particular the empty list for an empty
candidate list, and every declared candidate exactly once otherwise). -/
theorem compute_full_ranking_complete (method : String) (rankings : List (List Int))
    (candidates : List Int)
    (hm : method = "margin" ∨ method = "copeland" ∨ method = "borda")
    (hnd : candidates.Nodup) :
    ∃ l, compute_full_ranking method rankings candidates = .ok l ∧ l.Perm candidates :=
  compute_full_ranking_perm_aux method rankings hm candidates.length candidates le_rfl hnd

/-- C7, witness on the clear-winner scenario. -/
theorem compute_full_ranking_complete_witness :
    ∃ l, compute_full_ranking "margin" [[1, 2, 3], [1, 3, 2], [2, 1, 3]] [1, 2, 3] = .ok l ∧
      l.Perm [1, 2, 3] :=
  compute_full_ranking_complete "margin" [[1, 2, 3], [1, 3, 2], [2, 1, 3]] [1, 2, 3]
    (Or.inl rfl) (by decide)

/-- C8.  The validator succeeds exactly when every ballot mentions only
declared candidates and has no internal repeat (so partial ballots alone
never fail); any other outcome is an error, and every error names the index
of an offending ballot together with either an entry of that ballot that is
not declared or the list of values repeated inside it. -/
theorem validate_rankings_spec (rankings : List (List Int)) (candidates : List Int) :
    (validate_rankings rankings candidates = .ok true ↔
        ∀ r ∈ rankings, (∀ c ∈ r, c ∈ candidates) ∧ r.Nodup) ∧
      (validate_rankings rankings candidates = .ok true ∨
        ∃ e, validate_rankings rankings candidates = .error e) ∧
      ∀ e, validate_rankings rankings candidates = .error e →
        ∃ j r, rankings.get? j = some r ∧
          ((∃ c, e = .invalidCandidate j c ∧ c ∈ r ∧ c ∉ candidates) ∨
            (e = .duplicates j (r.filter fun x => decide (1 < r.count x)) ∧ ¬ r.Nodup)) := by
  refine ⟨validate_from_ok_iff candidates 0 rankings, ?_, ?_⟩
  · cases hres : validate_rankings rankings candidates with
    | ok b =>
      cases b with
      | false => exact absurd hres (validate_from_ne_ok_false candidates 0 rankings)
      | true => exact Or.inl rfl
    | error e => exact Or.inr ⟨e, rfl⟩
  · intro e he
    obtain ⟨j, r, hget, hone⟩ := validate_from_error candidates 0 rankings e he
    rw [Nat.zero_add] at hone
    exact ⟨j, r, hget, validate_one_error j r candidates e hone⟩

/-- C8, witness: the undeclared id `99` in the first ballot is reported with
ballot index `0` and the offending value. -/
theorem validate_rankings_spec_witness :
    ∃ j r, ([[1, 2, 99]] : List (List Int)).get? j = some r ∧
      ((∃ c, VErr.invalidCandidate 0 99 = .invalidCandidate j c ∧ c ∈ r ∧
          c ∉ ([1, 2, 3] : List Int)) ∨
        (VErr.invalidCandidate 0 99 = .duplicates j (r.filter fun x => decide (1 < r.count x)) ∧
          ¬ r.Nodup)) :=
  (validate_rankings_spec [[1, 2, 99]] [1, 2, 3]).2.2 (.invalidCandidate 0 99) (by decide)

/-- C9.  The claim says the engine never crashes on duplicate declared
candidates (with otherwise valid ballots).  The code refutes it: with
candidates `[1, 2, 1]` and the valid ballots `[[1, 2], [2, 1]]` there is no
Condorcet winner, the margin tie-break returns the ranking `[1, 2, 1]` still
containing the duplicate, and the tie-identification pass then reads
`margin_matrix[1][1]`, a key that does not exist — a `KeyError` crash. -/
theorem conduct_election_duplicate_crash :
    conduct_election "margin" [[1, 2], [2, 1]] [1, 2, 1] = .error .keyError := by
  unfold conduct_election
  rw [compute_full_ranking]
  rfl

/-- C10.  Whenever validation fails (some ballot mentions an undeclared
candidate or repeats one), the legacy wrapper `condorcet_winner` swallows the
validation error and returns `(None, {})` instead of propagating it. -/
theorem condorcet_winner_swallows_validation (rankings : List (List Int))
    (candidates : List Int)
    (h : ¬ ∀ r ∈ rankings, (∀ c ∈ r, c ∈ candidates) ∧ r.Nodup) :
    condorcet_winner rankings candidates = .ok (none, empty_matrix) := by
  have hne : validate_rankings rankings candidates ≠ .ok true := by
    intro hok
    exact h ((validate_from_ok_iff candidates 0 rankings).mp hok)
  have herr : ∃ e, validate_rankings rankings candidates = .error e := by
    cases hres : validate_rankings rankings candidates with
    | ok b =>
      cases b with
      | false => exact absurd hres (validate_from_ne_ok_false candidates 0 rankings)
      | true => exact absurd hres hne
    | error e => exact ⟨e, rfl⟩
  obtain ⟨e, he⟩ := herr
  unfold condorcet_winner conduct_election
  rw [he]

/-- C10, witness: a ballot with an internal duplicate makes the wrapper
return `(None, {})`. -/
theorem condorcet_winner_swallows_validation_witness :
    condorcet_winner [[1, 1]] [1, 2] = .ok (none, empty_matrix) :=
  condorcet_winner_swallows_validation [[1, 1]] [1, 2] (by decide)
